import Mathlib

/-!
Verification of the BigEye test dispatch/batching protocol and the
test data model / result-computation pipeline, shallowly embedded from
`src/bigeye/tests.py`, `src/bigeye/fetchers.py`, `src/bigeye/publishers.py`
and `src/bigeye/__init__.py`.

Numeric values fetched from data sources are modelled as rationals;
Python exceptions are modelled with `Option`/`Except`.
-/

namespace BigEye

/-- One entry of `Test.fetchers`: a dict `\x7b'name': .., 'details': ..\x7d`
to which `FetcherManager.fetchResults` later adds a `'result'` key.
`result = none` models the absent key; `details` stands for the opaque
query-details dict. -/
structure FetcherRef where
  name : String
  details : String
  result : Option ℚ
deriving DecidableEq

/-- One entry of `Test.publishers`: a dict `\x7b'name': .., 'details': ..\x7d`. -/
structure PubTarget where
  name : String
  details : String
deriving DecidableEq

/-- The two Python test classes: `QualityTest` and `ConsistencyTest`
(the latter carries the extra `action` string field). -/
inductive Variant where
  | quality
  | consistency (action : String)
deriving DecidableEq

/-- Shallow embedding of a test object (`QualityTest` / `ConsistencyTest`
in `src/bigeye/tests.py`).  `result = none` models the attribute being
unset before `computeResult` runs. -/
structure Test where
  name : String
  description : String
  team : String
  active : Bool
  fetchers : List FetcherRef
  publishers : List PubTarget
  tags : List (String × String)
  variant : Variant
  result : Option ℚ
deriving DecidableEq

/-- `QualityTest.isTest(**criteria)` restricted to the single criterion
`name=...`, which is the only form used by `TestManager.subsetOfTests`. -/
def Test.isTest (t : Test) (name : String) : Bool :=
  t.name == name

/-- Python exceptions that can escape `computeResult`. -/
inductive CalcErr where
  | zeroDivisionError
  | indexError
  | keyError
deriving DecidableEq

/-- `QualityTest.computeResult` / `ConsistencyTest.computeResult`
(`src/bigeye/tests.py` lines 248-251 and 310-317).
A quality test stores `self.fetchers[0]['result']`; a consistency test
dispatches on `self.action`: `'difference'` stores the difference of the
two fetcher results, `'division'` their quotient (raising
`ZeroDivisionError` on a zero divisor, as Python `/` does), and any
other action string falls through both branches leaving the test
untouched.  Missing fetcher entries model `IndexError`, a missing
`'result'` key models `KeyError`. -/
def Test.computeResult (t : Test) : Except CalcErr Test :=
  match t.variant with
  | .quality =>
    match t.fetchers[0]? with
    | none => .error .indexError
    | some f =>
      match f.result with
      | none => .error .keyError
      | some v => .ok { t with result := some v }
  | .consistency action =>
    if action = "difference" then
      match t.fetchers[0]?, t.fetchers[1]? with
      | some f0, some f1 =>
        match f0.result, f1.result with
        | some v0, some v1 => .ok { t with result := some (v0 - v1) }
        | _, _ => .error .keyError
      | _, _ => .error .indexError
    else if action = "division" then
      match t.fetchers[0]?, t.fetchers[1]? with
      | some f0, some f1 =>
        match f0.result, f1.result with
        | some v0, some v1 =>
          if v1 = 0 then .error .zeroDivisionError
          else .ok { t with result := some (v0 / v1) }
        | _, _ => .error .keyError
      | _, _ => .error .indexError
    else .ok t

/-- `TestManager.computeResults`: runs `computeResult` on each test of the
batch in order; an exception raised by one test propagates and aborts the
whole loop (there is no handler in `tests.py` or in `BigEye.runTests`). -/
def computeResults : List Test → Except CalcErr (List Test)
  | [] => .ok []
  | t :: ts => do
    let t' ← t.computeResult
    let ts' ← computeResults ts
    .ok (t' :: ts')

/-! ## The Batcher: `TestManager.subsetOfTests` (`tests.py` lines 151-174) -/

/-- Python slice `l[a : a+k]` for non-negative bounds. -/
def pySlice (l : List Test) (a k : Nat) : List Test :=
  (l.drop a).take k

/-- The name of the test at position `i`, if any. -/
def nameAt (tests : List Test) (i : Nat) : Option String :=
  (tests[i]?).map Test.name

/-- The boundary test of `subsetOfTests`:
`tests[startIndex+maxsize-1].name != tests[startIndex+maxsize].name`.
Python evaluates it only when `startIndex+maxsize < len(tests)`; when
`startIndex+maxsize = 0` the index `-1` wraps around to the last
element, which `e = 0` reproduces here. -/
def boundaryNameDiffers (tests : List Test) (e : Nat) : Prop :=
  (if e = 0 then nameAt tests (tests.length - 1) else nameAt tests (e - 1)) ≠ nameAt tests e

instance (tests : List Test) (e : Nat) : Decidable (boundaryNameDiffers tests e) := by
  unfold boundaryNameDiffers
  infer_instance

/-- `TestManager.subsetOfTests(tests, startIndex, maxsize)`.
If the slice boundary does not fall inside a same-named run the batch is
the plain slice `tests[startIndex : startIndex+maxsize]`; otherwise the
candidate slice is filtered, dropping every test whose name equals the
name of the slice's last element.  Either way the second component is
`startIndex + len(subset)`.
Returns `none` exactly when Python raises: in the trimming branch with an
empty candidate slice (`maxsize = 0`), `tests[-1]` raises `IndexError`. -/
def subsetOfTests (tests : List Test) (startIndex maxsize : Nat) :
    Option (List Test × Nat) :=
  if startIndex + maxsize ≥ tests.length
      ∨ boundaryNameDiffers tests (startIndex + maxsize) then
    let subset := pySlice tests startIndex maxsize
    some (subset, startIndex + subset.length)
  else
    let cand := pySlice tests startIndex maxsize
    match cand.getLast? with
    | none => none
    | some lastT =>
      let subset := cand.filter (fun t => ! t.isTest lastT.name)
      some (subset, startIndex + subset.length)

/-- The Batcher contract exactly as the specification words it
(§4.3 / claim C1), with ordinary mathematical indexing: `end = startIndex
+ maxSize`; if `end ≥ len(tests)` or the names at `end-1` and `end`
differ, the batch is the (possibly shorter) slice
`tests[startIndex:end]`; otherwise every element of the candidate slice
whose name equals the name of the slice's last element is dropped.
`nextIndex = startIndex + len(batch)`. -/
def specSubset (tests : List Test) (startIndex maxSize : Nat) :
    List Test × Nat :=
  if startIndex + maxSize ≥ tests.length
      ∨ nameAt tests (startIndex + maxSize - 1) ≠ nameAt tests (startIndex + maxSize) then
    let batch := pySlice tests startIndex maxSize
    (batch, startIndex + batch.length)
  else
    let cand := pySlice tests startIndex maxSize
    let lastName := ((cand.getLast?).map Test.name).getD ""
    let batch := cand.filter (fun t => ! (t.name == lastName))
    (batch, startIndex + batch.length)

/-! ## Properties of test orderings -/

/-- Tests sharing a name are contiguous: whenever the tests at positions
`p ≤ q` have the same name, every test between them has that name too.
This is the ordering produced by the catalog builder (same-named tests
come from one definition file) and is what the spec calls load-bearing. -/
def Grouped (tests : List Test) : Prop :=
  ∀ q, q < tests.length → ∀ p, p ≤ q → nameAt tests p = nameAt tests q →
    ∀ k, k ≤ q → p ≤ k → nameAt tests k = nameAt tests p

instance (tests : List Test) : Decidable (Grouped tests) := by
  unfold Grouped
  infer_instance

/-- `maxSize` bounds every run of equal-named tests: any contiguous
segment of positions carrying one name has length at most `m`.
This is "`maxSize` ≥ the longest same-name run" from claim C2. -/
def RunsBounded (tests : List Test) (m : Nat) : Prop :=
  ∀ j, j < tests.length → ∀ i, i ≤ j →
    (∀ k, k ≤ j → i ≤ k → nameAt tests k = nameAt tests i) →
    j - i + 1 ≤ m

instance (tests : List Test) (m : Nat) : Decidable (RunsBounded tests m) := by
  unfold RunsBounded
  infer_instance

/-- A run of equal-named tests is split across the batch returned by
`subsetOfTests` and the remainder `tests[nextIndex:]`: two distinct
positions `i < j` carrying one contiguous name-run have the test at `i`
in the returned batch while the test at `j` is in the remainder, so the
run's tests are not all handled within this one batch. -/
def SplitsRun (tests : List Test) (s m : Nat) : Prop :=
  ∃ j, j < tests.length ∧ ∃ i, i < j ∧
    (∀ k, k ≤ j → i ≤ k → nameAt tests k = nameAt tests i) ∧
    ∃ batch next, subsetOfTests tests s m = some (batch, next) ∧
      (∃ ti, tests[i]? = some ti ∧ ti ∈ batch) ∧
      (∃ tj, tests[j]? = some tj ∧ tj ∈ tests.drop next)

/-! ## Iterated batching (claim C2) -/

/-- Repeatedly apply `subsetOfTests` from a start index, feeding the
returned `nextIndex` back in, collecting the batches.  `fuel` bounds the
number of applications so the function is total; `none` means either a
raised exception or failure to finish within `fuel` steps. -/
def runBatches (tests : List Test) (m : Nat) : Nat → Nat → Option (List (List Test))
  | 0, s => if s < tests.length then none else some []
  | fuel + 1, s =>
    if s < tests.length then
      match subsetOfTests tests s m with
      | none => none
      | some (batch, next) => (runBatches tests m fuel next).map (batch :: ·)
    else some []

/-! ## The fetch stage: `FetcherManager.fetchResults` (`fetchers.py` lines 40-73) -/

/-- The `FetchError` taxonomy of `PostgresDB.fetchResults`: a query
returning zero rows, an SQL error, or an internal database error. -/
inductive FetchErr where
  | noRows
  | queryError
  | internalError
deriving DecidableEq

/-- The data-source collaborator: resolving one fetcher entry (by fetcher
name and query details) yields a value or signals a `FetchError`.
This abstracts `extractFetcher` + `fetcher.fetchResults(details)`. -/
def Resolver : Type := String → String → Except FetchErr ℚ

/-- The inner loop of `fetchResults` for one test: walk the test's
fetcher entries in declaration order, storing each resolved value under
the `'result'` key; the first `FetchError` aborts the remaining entries
of this test. -/
def setResults (resolve : Resolver) : List FetcherRef → Except FetchErr (List FetcherRef)
  | [] => .ok []
  | f :: fs => do
    let v ← resolve f.name f.details
    let rest ← setResults resolve fs
    .ok ({ f with result := some v } :: rest)

/-- Processing of one test by `FetcherManager.fetchResults`: all its
fetcher entries resolved and stored, or the `FetchError` that aborted it. -/
def fetchTest (resolve : Resolver) (t : Test) : Except FetchErr Test := do
  let fs ← setResults resolve t.fetchers
  .ok { t with fetchers := fs }

/-- `FetcherManager.fetchResults(tests)`: each test is processed inside
`try ... except FetchError: pass`, and is appended to the output only if
no fetcher entry failed; a failing test is silently dropped and the loop
continues with the next test. -/
def fetchResults (resolve : Resolver) (tests : List Test) : List Test :=
  tests.filterMap (fun t => (fetchTest resolve t).toOption)

/-- The test a successful fetch produces (used to state theorems about
`fetchResults`; for tests that fail it is never used). -/
def fetchedTest (resolve : Resolver) (t : Test) : Test :=
  ((fetchTest resolve t).toOption).getD t

/-! ## The publish stage: `PublisherManager` (`publishers.py` lines 40-65) -/

/-- A configured publisher in the manager: its name plus its behaviour,
`raisesOn payload = true` meaning its `publishResults` raises a
`PublishError` for that payload.  The concrete Datadog client is out of
scope; the behaviour function stands for the collaborator contract. -/
structure Pub where
  name : String
  raisesOn : List Test → Bool

/-- `PublisherManager.getTestsForPublisher(publisher, tests)`:
`[test for test in tests if publisher.name in [p['name'] for p in test.publishers]]`. -/
def getTestsForPublisher (p : Pub) (tests : List Test) : List Test :=
  tests.filter (fun t => (t.publishers.map PubTarget.name).contains p.name)

/-- One `p.publishResults(testsForThisPublisher)` call: either returns or
raises a `PublishError`. -/
def publishOne (p : Pub) (payload : List Test) : Except Unit Unit :=
  if p.raisesOn payload then .error () else .ok ()

/-- `PublisherManager.publishResults(tests)`: for each configured
publisher in order, extract the tests that declare it and hand them to
it; a `PublishError` is caught (`except PublishError: pass`), so the
loop continues either way.  The returned list records every hand-off
call made, with its payload (the call happens before any exception, and
an exception never stops the loop). -/
def publishResults (pubs : List Pub) (tests : List Test) : List (String × List Test) :=
  match pubs with
  | [] => []
  | p :: rest =>
    let payload := getTestsForPublisher p tests
    match publishOne p payload with
    | .ok _ => (p.name, payload) :: publishResults rest tests
    | .error _ => (p.name, payload) :: publishResults rest tests

/-! ## The slave pipeline: `BigEye.runTests` (`__init__.py` lines 79-91) -/

/-- `BigEye.runTests(filesNames)` after the catalog has been built: if
the batch is non-empty, fetch values (dropping tests whose fetch
failed), compute every surviving test's result, and publish.  An
exception escaping `computeResults` (such as `ZeroDivisionError`)
propagates and aborts the whole run before anything is published; the
result records the publish hand-offs of a completed run. -/
def runTests (resolve : Resolver) (pubs : List Pub) (tests : List Test) :
    Except CalcErr (List (String × List Test)) :=
  if tests.length > 0 then
    match computeResults (fetchResults resolve tests) with
    | .error e => .error e
    | .ok computed => .ok (publishResults pubs computed)
  else .ok []

/-! ## The master dispatch loop: `BigEye.dispatchWork` (`__init__.py` lines 48-77) -/

/-- The outward calls the master makes: dispatching a batch to a slave
(`callSlave(filesNames)`) or handing off to a fresh master
(`callMaster(startIndex)`). -/
inductive Call where
  | slave (filesNames : List String)
  | master (startIndex : Nat)
deriving DecidableEq

/-- The `while startIndex < len(tests) and iterations <= maxIterations`
loop of `dispatchWork`, returning the sequence of calls made and the
final value of `startIndex`.  Each pass increments `iterations`; once it
exceeds `maxIterations` the pass makes the single `callMaster(startIndex)`
hand-off, after which the loop condition fails and the invocation stops.
Otherwise the pass dispatches the next batch to a slave (with
`name + '.yaml'` file names) and advances `startIndex`.  `none` models
the `IndexError` `subsetOfTests` can raise. -/
def dispatchLoop (tests : List Test) (batchSize maxIterations : Nat)
    (startIndex iterations : Nat) : Option (List Call × Nat) :=
  if _hloop : startIndex < tests.length ∧ iterations ≤ maxIterations then
    if iterations + 1 > maxIterations then
      match dispatchLoop tests batchSize maxIterations startIndex (iterations + 1) with
      | none => none
      | some (rest, finalIndex) => some (Call.master startIndex :: rest, finalIndex)
    else
      match subsetOfTests tests startIndex batchSize with
      | none => none
      | some (batch, next) =>
        match dispatchLoop tests batchSize maxIterations next (iterations + 1) with
        | none => none
        | some (rest, finalIndex) =>
          some (Call.slave (batch.map (fun t => t.name ++ ".yaml")) :: rest, finalIndex)
  else some ([], startIndex)
termination_by maxIterations + 1 - iterations
decreasing_by
  all_goals omega

/-- `BigEye.dispatchWork(startIndex)` viewed through its calls: the loop
is entered with `iterations = 0`. -/
def dispatchWork (tests : List Test) (batchSize maxIterations : Nat)
    (startIndex : Nat) : Option (List Call × Nat) :=
  dispatchLoop tests batchSize maxIterations startIndex 0

/-! ## Concrete instances used in the theorems below -/

/-- A minimal test with a given name and description and no fetchers. -/
def sampleTest (n d : String) : Test :=
  ⟨n, d, "team", true, [], [], [], .quality, none⟩

/-- A quality test whose single fetcher already carries a resolved value. -/
def sampleQuality (v : ℚ) : Test :=
  ⟨"q", "quality sample", "team", true, [⟨"f0", "q0", some v⟩], [], [], .quality, none⟩

/-- A consistency test with both fetcher values resolved. -/
def sampleConsistency (action : String) (v0 v1 : ℚ) : Test :=
  ⟨"c", "consistency sample", "team", true,
    [⟨"f0", "q0", some v0⟩, ⟨"f1", "q1", some v1⟩], [], [], .consistency action, none⟩

/-- A ratio test whose divisor value is zero (claims C4 and C5). -/
def ratioZeroTest : Test := sampleConsistency "division" 1 0

/-- Single-element list on which `subsetOfTests tests 0 0` raises
`IndexError` (claim C1). -/
def crashC1tests : List Test := [sampleTest "a" "only"]

/-- Batch list for claim C1's amended statement. -/
def sliceC1tests : List Test :=
  [sampleTest "a" "0", sampleTest "a" "1", sampleTest "b" "2"]

/-- An ordering whose equal-named tests are not contiguous:
names `b a b b`.  The longest contiguous run has length 2 and the name
`b` occurs 3 times, so `maxsize = 3` bounds both, yet iterated batching
skips position 0 and visits position 1 twice (claim C2). -/
def scatteredTests : List Test :=
  [sampleTest "b" "0", sampleTest "a" "1", sampleTest "b" "2", sampleTest "b" "3"]

/-- A grouped ordering used as witness input: names `a a b`. -/
def groupedTests : List Test :=
  [sampleTest "a" "0", sampleTest "a" "1", sampleTest "b" "2"]

/-- An ordering whose equal-named tests are not contiguous:
names `b a a b b`.  With `maxsize = 4` the trimming branch removes the
`b` tests from the middle of the candidate slice and `nextIndex` lands
inside the `a a` run, splitting it between batch and remainder (claim C3). -/
def straddleTests : List Test :=
  [sampleTest "b" "0", sampleTest "a" "1", sampleTest "a" "2",
    sampleTest "b" "3", sampleTest "b" "4"]

/-- Resolver that fails (no rows) exactly for fetcher name `"bad"` and
returns 1 otherwise (claim C6's witness). -/
def sampleResolver : Resolver := fun n _ =>
  if n = "bad" then .error .noRows else .ok 1

/-- A test whose single fetcher entry hits the failing fetcher. -/
def failingTest : Test :=
  ⟨"fails", "failing sample", "team", true, [⟨"bad", "qb", none⟩], [], [], .quality, none⟩

/-- Two tests whose fetches succeed under `sampleResolver`. -/
def okTest1 : Test :=
  ⟨"ok1", "ok sample 1", "team", true, [⟨"f0", "qa", none⟩], [], [], .quality, none⟩

/-- See `okTest1`. -/
def okTest2 : Test :=
  ⟨"ok2", "ok sample 2", "team", true,
    [⟨"f0", "qa", none⟩, ⟨"f1", "qb", none⟩], [], [], .consistency "difference", none⟩

/-- Resolver for claim C5's pipeline counterexample: fetcher `"fz"`
resolves to 0, every other fetcher to 5. -/
def zeroResolver : Resolver := fun n _ =>
  if n = "fz" then .ok 0 else .ok 5

/-- A ratio test whose second fetcher resolves to zero under
`zeroResolver` (fetch succeeds; the later division raises). -/
def pipelineRatioTest : Test :=
  ⟨"rz", "ratio zero in pipeline", "team", true,
    [⟨"fa", "q1", none⟩, ⟨"fz", "q2", none⟩], [], [], .consistency "division", none⟩

/-- A healthy quality test sharing the batch with `pipelineRatioTest`. -/
def pipelineOkTest : Test :=
  ⟨"ok", "healthy in pipeline", "team", true, [⟨"fa", "q1", none⟩], [], [], .quality, none⟩

/-! # Theorems

From here on, only theorems: first the claim C4/C10/C5 family about
`computeResult` and the slave pipeline, then the fetch stage (C6, C9),
the publish stage (C8), the batcher (C1, C2, C3) and the dispatch loop
(C7). -/

/-- Claim C4, amended for the Ratio/zero case: a quality test's result is
its single resolved data-source value; a consistency test's result is the
difference of its two resolved values under action `difference`, and
their quotient under action `division` provided the second value is
nonzero (a zero second value raises instead, see the counterexample). -/
theorem claimC4_theorem (t : Test) (f0 f1 : FetcherRef) (v0 v1 : ℚ) :
    (t.variant = .quality → t.fetchers = [f0] → f0.result = some v0 →
      t.computeResult = .ok { t with result := some v0 })
    ∧ (t.variant = .consistency "difference" → t.fetchers = [f0, f1] →
        f0.result = some v0 → f1.result = some v1 →
        t.computeResult = .ok { t with result := some (v0 - v1) })
    ∧ (t.variant = .consistency "division" → t.fetchers = [f0, f1] →
        f0.result = some v0 → f1.result = some v1 → v1 ≠ 0 →
        t.computeResult = .ok { t with result := some (v0 / v1) }) := by
  obtain ⟨nm, ds, tm, ac, fe, pb, tg, va, rs⟩ := t
  refine ⟨?_, ?_, ?_⟩
  · intro hv hf hr
    simp only at hv hf
    subst hv; subst hf
    simp [Test.computeResult, hr]
  · intro hv hf h0 h1
    simp only at hv hf
    subst hv; subst hf
    simp [Test.computeResult, h0, h1]
  · intro hv hf h0 h1 hne
    simp only at hv hf
    subst hv; subst hf
    simp [Test.computeResult, h0, h1, hne]

/-- Witness for `claimC4_theorem` at concrete inputs: a quality test with
value 5, a difference test with values 3 and 7, and a division test with
values 6 and −2. -/
theorem claimC4_witness :
    (sampleQuality 5).computeResult = .ok { sampleQuality 5 with result := some 5 }
    ∧ (sampleConsistency "difference" 3 7).computeResult
        = .ok { sampleConsistency "difference" 3 7 with result := some (3 - 7) }
    ∧ (sampleConsistency "division" 6 (-2)).computeResult
        = .ok { sampleConsistency "division" 6 (-2) with result := some (6 / (-2)) } :=
  ⟨(claimC4_theorem (sampleQuality 5) ⟨"f0", "q0", some 5⟩ ⟨"f0", "q0", some 5⟩ 5 5).1
      rfl rfl rfl,
    (claimC4_theorem (sampleConsistency "difference" 3 7)
        ⟨"f0", "q0", some 3⟩ ⟨"f1", "q1", some 7⟩ 3 7).2.1 rfl rfl rfl rfl,
    (claimC4_theorem (sampleConsistency "division" 6 (-2))
        ⟨"f0", "q0", some 6⟩ ⟨"f1", "q1", some (-2)⟩ 6 (-2)).2.2 rfl rfl rfl rfl
      (by norm_num)⟩

/-- Counterexample to claim C4 as stated: for a Ratio (action
`division`) test whose two data-source values are resolved (1 and 0),
`computeResult` does not set any result — it raises `ZeroDivisionError` —
so the claim's universally quantified "sets result to the quotient" fails
at this input. -/
theorem claimC4_counterexample :
    ratioZeroTest.computeResult = .error .zeroDivisionError := by
  rfl

/-- Claim C10: a consistency test whose action is neither `'difference'`
nor `'division'` falls through both branches of `computeResult`: no
exception, no assignment, the test is returned untouched. -/
theorem claimC10_theorem (t : Test) (a : String) (hv : t.variant = .consistency a)
    (h1 : a ≠ "difference") (h2 : a ≠ "division") :
    t.computeResult = .ok t := by
  obtain ⟨nm, ds, tm, ac, fe, pb, tg, va, rs⟩ := t
  simp only at hv
  subst hv
  simp [Test.computeResult, h1, h2]

/-- Witness for `claimC10_theorem`: the unrecognized action `"ratio"`. -/
theorem claimC10_witness :
    (sampleConsistency "ratio" 1 2).computeResult = .ok (sampleConsistency "ratio" 1 2) :=
  claimC10_theorem (sampleConsistency "ratio" 1 2) "ratio" rfl (by decide) (by decide)

/-- Claim C5, amended: a Ratio (action `division`) consistency test whose
second resolved value is zero makes `computeResult` signal
`ZeroDivisionError` — surfaced to the caller, neither suppressed nor
turned into infinity — but the exception propagates out of
`computeResults` uncaught, aborting the run of the whole batch
containing the test (the pipeline has no handler for it). -/
theorem claimC5_theorem (t : Test) (f0 f1 : FetcherRef) (v0 : ℚ)
    (hv : t.variant = .consistency "division") (hf : t.fetchers = [f0, f1])
    (h0 : f0.result = some v0) (h1 : f1.result = some 0) :
    t.computeResult = .error .zeroDivisionError
    ∧ ∀ pre post, (∀ u ∈ pre, ((u.computeResult).toOption).isSome = true) →
        computeResults (pre ++ t :: post) = .error .zeroDivisionError := by
  have hcalc : t.computeResult = .error .zeroDivisionError := by
    obtain ⟨nm, ds, tm, ac, fe, pb, tg, va, rs⟩ := t
    simp only at hv hf
    subst hv; subst hf
    simp [Test.computeResult, h0, h1]
  refine ⟨hcalc, ?_⟩
  intro pre post hpre
  induction pre with
  | nil => simp [computeResults, hcalc, Bind.bind, Except.bind]
  | cons u rest ih =>
    have hu := hpre u (by simp)
    obtain ⟨u', hu'⟩ : ∃ u', u.computeResult = .ok u' := by
      cases h : u.computeResult with
      | ok w => exact ⟨w, rfl⟩
      | error e => rw [h] at hu; simp [Except.toOption] at hu
    have hrest : computeResults (rest ++ t :: post) = .error .zeroDivisionError :=
      ih (fun w hw => hpre w (by simp [hw]))
    simp [computeResults, hu', hrest, Bind.bind, Except.bind]

/-- Witness for `claimC5_theorem`: `ratioZeroTest` preceded by a healthy
quality test; the whole batch's `computeResults` dies with the
`ZeroDivisionError`. -/
theorem claimC5_witness :
    ratioZeroTest.computeResult = .error .zeroDivisionError
    ∧ computeResults [sampleQuality 5, ratioZeroTest] = .error .zeroDivisionError := by
  have h := claimC5_theorem ratioZeroTest ⟨"f0", "q0", some 1⟩ ⟨"f1", "q1", some 0⟩ 1
    rfl rfl rfl rfl
  exact ⟨h.1, h.2 [sampleQuality 5] [] (by decide)⟩

/-- Counterexample to claim C5 as stated: the claim asserts that the
domain error "does not crash the pipeline run processing the batch
containing the test", but for the batch `[pipelineOkTest,
pipelineRatioTest]` — where every fetch succeeds and only the second
test divides by the fetched zero — the slave pipeline `runTests` aborts
with the uncaught `ZeroDivisionError` and publishes nothing. -/
theorem claimC5_counterexample :
    runTests zeroResolver [] [pipelineOkTest, pipelineRatioTest]
      = .error .zeroDivisionError := by
  rfl

/-! ## The fetch stage -/

/-- On a list of tests whose fetches all succeed, `fetchResults` keeps
every test, fetched. -/
theorem fetchResults_all_ok (resolve : Resolver) (l : List Test)
    (h : ∀ t ∈ l, ((fetchTest resolve t).toOption).isSome = true) :
    l.filterMap (fun t => (fetchTest resolve t).toOption) = l.map (fetchedTest resolve) := by
  induction l with
  | nil => rfl
  | cons a rest ih =>
    have ha := h a (by simp)
    cases hopt : (fetchTest resolve a).toOption with
    | none => rw [hopt] at ha; simp at ha
    | some w =>
      have : fetchedTest resolve a = w := by simp [fetchedTest, hopt]
      simp [List.filterMap_cons, hopt, this, ih (fun u hu => h u (by simp [hu]))]

/-- A successful `setResults` stores a value under every fetcher entry. -/
theorem setResults_isSome (resolve : Resolver) (fs fs' : List FetcherRef)
    (h : setResults resolve fs = .ok fs') :
    ∀ f ∈ fs', f.result.isSome = true := by
  induction fs generalizing fs' with
  | nil =>
    simp only [setResults] at h
    cases h
    simp
  | cons f rest ih =>
    simp only [setResults, Bind.bind, Except.bind] at h
    cases hv : resolve f.name f.details with
    | error e => rw [hv] at h; cases h
    | ok v =>
      rw [hv] at h
      simp only [Except.bind] at h
      cases hr : setResults resolve rest with
      | error e => rw [hr] at h; cases h
      | ok rest' =>
        rw [hr] at h
        simp only [Except.bind] at h
        cases h
        intro g hg
        rcases List.mem_cons.mp hg with hg | hg
        · subst hg; simp
        · exact ih rest' hr g hg

/-- A successfully fetched test carries a value under every fetcher
entry. -/
theorem fetchTest_ok_isSome (resolve : Resolver) (t u : Test)
    (h : fetchTest resolve t = .ok u) :
    ∀ f ∈ u.fetchers, f.result.isSome = true := by
  simp only [fetchTest, Bind.bind, Except.bind] at h
  cases hs : setResults resolve t.fetchers with
  | error e => rw [hs] at h; cases h
  | ok fs' =>
    rw [hs] at h
    simp only [Except.bind] at h
    cases h
    simpa using setResults_isSome resolve t.fetchers fs' hs

/-- Claim C6: in a batch where exactly one test's data-source resolution
signals a fetch failure and every other test's resolution succeeds,
`fetchResults` returns exactly the other tests of the batch (in order),
each carrying a fetched value under every data-source entry; only the
failing test is excluded, and its failure does not disturb the rest. -/
theorem claimC6_theorem (resolve : Resolver) (pre : List Test) (bad : Test)
    (post : List Test)
    (hgood : ∀ t ∈ pre ++ post, ((fetchTest resolve t).toOption).isSome = true)
    (hbad : (fetchTest resolve bad).toOption = none) :
    fetchResults resolve (pre ++ bad :: post)
      = pre.map (fetchedTest resolve) ++ post.map (fetchedTest resolve)
    ∧ ∀ u ∈ pre.map (fetchedTest resolve) ++ post.map (fetchedTest resolve),
        ∀ f ∈ u.fetchers, f.result.isSome = true := by
  have hpre : ∀ t ∈ pre, ((fetchTest resolve t).toOption).isSome = true :=
    fun t ht => hgood t (by simp [ht])
  have hpost : ∀ t ∈ post, ((fetchTest resolve t).toOption).isSome = true :=
    fun t ht => hgood t (by simp [ht])
  constructor
  · simp only [fetchResults, List.filterMap_append, List.filterMap_cons, hbad]
    rw [fetchResults_all_ok resolve pre hpre, fetchResults_all_ok resolve post hpost]
  · intro u hu
    have : ∃ t, t ∈ pre ++ post ∧ fetchedTest resolve t = u := by
      rcases List.mem_append.mp hu with h | h
      · rcases List.mem_map.mp h with ⟨t, ht, hft⟩
        exact ⟨t, by simp [ht], hft⟩
      · rcases List.mem_map.mp h with ⟨t, ht, hft⟩
        exact ⟨t, by simp [ht], hft⟩
    rcases this with ⟨t, ht, hft⟩
    have hsome := hgood t ht
    cases hopt : fetchTest resolve t with
    | error e => rw [hopt] at hsome; simp [Except.toOption] at hsome
    | ok w =>
      have hw : u = w := by
        rw [← hft]; simp [fetchedTest, hopt, Except.toOption]
      subst hw
      exact fetchTest_ok_isSome resolve t u hopt

/-- Witness for `claimC6_theorem`: under `sampleResolver` the middle test
`failingTest` (fetcher named `"bad"`) is dropped while `okTest1` and
`okTest2` come back fetched. -/
theorem claimC6_witness :
    fetchResults sampleResolver [okTest1, failingTest, okTest2]
      = [fetchedTest sampleResolver okTest1] ++ [fetchedTest sampleResolver okTest2]
    ∧ ∀ u ∈ [fetchedTest sampleResolver okTest1] ++ [fetchedTest sampleResolver okTest2],
        ∀ f ∈ u.fetchers, f.result.isSome = true := by
  have h := claimC6_theorem sampleResolver [okTest1] failingTest [okTest2]
    (by decide) (by decide)
  simpa using h

/-- Claim C9: `fetchResults` returns precisely the sublist of input tests
whose fetches succeed, in input order and fetched — nothing is reordered,
duplicated, or invented. -/
theorem claimC9_theorem (resolve : Resolver) (tests : List Test) :
    fetchResults resolve tests
      = (tests.filter (fun t => ((fetchTest resolve t).toOption).isSome)).map
          (fetchedTest resolve)
    ∧ List.Sublist
        (tests.filter (fun t => ((fetchTest resolve t).toOption).isSome)) tests := by
  constructor
  · induction tests with
    | nil => rfl
    | cons a rest ih =>
      cases hopt : (fetchTest resolve a).toOption with
      | none => simp [fetchResults, List.filterMap_cons, List.filter_cons, hopt, ih,
          fetchResults] at ih ⊢; exact ih
      | some w =>
        have : fetchedTest resolve a = w := by simp [fetchedTest, hopt]
        simp [fetchResults, List.filterMap_cons, List.filter_cons, hopt, this] at ih ⊢
        exact ih
  · exact List.filter_sublist tests

/-! ## The publish stage -/

/-- `getTestsForPublisher` selects exactly the tests that declare the
publisher's name among their publish targets. -/
theorem getTestsForPublisher_eq (p : Pub) (tests : List Test) :
    getTestsForPublisher p tests
      = tests.filter (fun t => decide (∃ pt ∈ t.publishers, pt.name = p.name)) := by
  apply List.filter_congr
  intro t _
  simp only [List.contains, List.elem_eq_mem, decide_eq_decide, List.mem_map]

/-- Claim C8: `publishResults` makes one hand-off call per configured
destination, in order, each carrying exactly the tests that declare that
destination among their publish targets — independently of which
destinations raise a `PublishError`, since the error is caught and the
loop continues; in particular a failure of one destination never
prevents any other from receiving its tests. -/
theorem claimC8_theorem (pubs : List Pub) (tests : List Test) :
    publishResults pubs tests
      = pubs.map (fun p =>
          (p.name, tests.filter (fun t => decide (∃ pt ∈ t.publishers, pt.name = p.name)))) := by
  induction pubs with
  | nil => rfl
  | cons p rest ih =>
    simp only [publishResults, ih, getTestsForPublisher_eq, List.map_cons]
    split <;> rfl

/-! ## The Batcher: claim C1 -/

/-- Claim C1, amended to `maxsize ≥ 1`: for every test list, start index
and positive maximum size, `subsetOfTests` returns (it cannot raise) and
its result is exactly the pair described by the specification's
algorithm, `specSubset`.  With `maxsize = 0` Python can instead raise
`IndexError` — see the counterexample. -/
theorem claimC1_theorem (tests : List Test) (s m : Nat) (hm : 1 ≤ m) :
    subsetOfTests tests s m = some (specSubset tests s m) := by
  have he : ¬ (s + m = 0) := by omega
  unfold subsetOfTests specSubset boundaryNameDiffers
  simp only [if_neg he]
  by_cases hcond : s + m ≥ tests.length ∨ nameAt tests (s + m - 1) ≠ nameAt tests (s + m)
  · rw [if_pos hcond, if_pos hcond]
  · rw [if_neg hcond, if_neg hcond]
    have hlt : s + m < tests.length := by
      rcases not_or.mp hcond with ⟨h1, _⟩
      omega
    have hcand : (pySlice tests s m).length = m := by
      simp only [pySlice, List.length_take, List.length_drop]
      omega
    have hne : pySlice tests s m ≠ [] := by
      intro h
      rw [h] at hcand
      simp at hcand
      omega
    obtain ⟨lastT, hlast⟩ : ∃ x, (pySlice tests s m).getLast? = some x := by
      cases hL : (pySlice tests s m).getLast? with
      | none => exact absurd (List.getLast?_eq_none_iff.mp hL) hne
      | some x => exact ⟨x, rfl⟩
    rw [hlast]
    have hname : ((some lastT).map Test.name).getD "" = lastT.name := rfl
    simp only [hname, Test.isTest]

/-- Witness for `claimC1_theorem`: names `a a b`, `startIndex = 0`,
`maxsize = 2`. -/
theorem claimC1_witness :
    subsetOfTests sliceC1tests 0 2 = some (specSubset sliceC1tests 0 2) :=
  claimC1_theorem sliceC1tests 0 2 (by decide)

/-- Counterexample to claim C1 as stated: it quantifies over every
`maxSize`, but with `maxsize = 0` on a non-empty list whose boundary
names coincide (here a one-element list, where Python's `tests[-1]`
wraps to the single element) `subsetOfTests` raises `IndexError` on the
empty candidate slice instead of returning any pair. -/
theorem claimC1_counterexample :
    subsetOfTests crashC1tests 0 0 = none := by
  rfl

/-! ## Slice and takeWhile helpers for the batcher analysis -/

theorem pySlice_length (l : List Test) (s k : Nat) :
    (pySlice l s k).length = min k (l.length - s) := by
  simp [pySlice]

theorem pySlice_getElem? (l : List Test) (s k i : Nat) :
    (pySlice l s k)[i]? = if i < k then l[s + i]? else none := by
  simp [pySlice, List.getElem?_take, List.getElem?_drop]

/-- `takeWhile` is the prefix of the list of its own length. -/
theorem takeWhile_as_take {α} (p : α → Bool) (l : List α) :
    l.takeWhile p = l.take (l.takeWhile p).length := by
  induction l with
  | nil => rfl
  | cons a t ih =>
    by_cases h : p a
    · rw [List.takeWhile_cons_of_pos h, List.length_cons, List.take_succ_cons, ← ih]
    · rw [List.takeWhile_cons_of_neg h]
      rfl

/-- The element just past `takeWhile`, when it exists, falsifies the
predicate. -/
theorem takeWhile_stop {α} (p : α → Bool) (l : List α)
    (h : (l.takeWhile p).length < l.length) :
    ∃ x, l[(l.takeWhile p).length]? = some x ∧ p x = false := by
  induction l with
  | nil => simp at h
  | cons a t ih =>
    by_cases hp : p a
    · rw [List.takeWhile_cons_of_pos hp] at h ⊢
      simp only [List.length_cons] at h ⊢
      obtain ⟨x, hx, hpx⟩ := ih (by omega)
      exact ⟨x, by simpa using hx, hpx⟩
    · rw [List.takeWhile_cons_of_neg hp]
      exact ⟨a, by simp, by simpa using hp⟩

/-- Truncating a slice: taking a prefix of a slice is the shorter slice. -/
theorem pySlice_take (l : List Test) (s m k : Nat) :
    (pySlice l s m).take k = pySlice l s (min k m) := by
  simp [pySlice, List.take_take]

/-- Characterization of the trimming branch of `subsetOfTests` on a
grouped list: the batch is the contiguous slice `tests[s : s+k]` for
some `k < m`, the position `s + k` carries the boundary name, and every
position inside the batch does not. -/
theorem subsetOfTests_trim_char (tests : List Test) (hg : Grouped tests) (s m : Nat)
    (hlt : s + m < tests.length) (hb : ¬ boundaryNameDiffers tests (s + m))
    (hm : 1 ≤ m) :
    ∃ k, k < m ∧
      subsetOfTests tests s m = some (pySlice tests s k, s + k) ∧
      nameAt tests (s + k) = nameAt tests (s + m) ∧
      ∀ i, i < k → nameAt tests (s + i) ≠ nameAt tests (s + m) := by
  have hcslen : (pySlice tests s m).length = m := by
    rw [pySlice_length]
    omega
  have hcsne : pySlice tests s m ≠ [] := by
    intro hnil
    rw [hnil] at hcslen
    simp at hcslen
    omega
  obtain ⟨lastT, hlast⟩ : ∃ x, (pySlice tests s m).getLast? = some x := by
    cases hL : (pySlice tests s m).getLast? with
    | none => exact absurd (List.getLast?_eq_none_iff.mp hL) hcsne
    | some x => exact ⟨x, rfl⟩
  have hlastIdx : tests[s + (m - 1)]? = some lastT := by
    have hg' := List.getLast?_eq_getElem? (pySlice tests s m)
    rw [hlast, hcslen, pySlice_getElem?, if_pos (by omega)] at hg'
    exact hg'.symm
  have hbe : nameAt tests (s + m - 1) = nameAt tests (s + m) := by
    unfold boundaryNameDiffers at hb
    rw [if_neg (by omega : ¬ (s + m = 0))] at hb
    exact not_ne_iff.mp hb
  have hn2 : nameAt tests (s + m) = some lastT.name := by
    rw [← hbe, show s + m - 1 = s + (m - 1) by omega]
    simp [nameAt, hlastIdx]
  obtain ⟨kk, hkk⟩ :
      ∃ kk, ((pySlice tests s m).takeWhile (fun t => ! t.isTest lastT.name)).length = kk :=
    ⟨_, rfl⟩
  have hkle : kk ≤ m := by
    have := congrArg List.length
      (takeWhile_as_take (fun t => ! t.isTest lastT.name) (pySlice tests s m))
    rw [List.length_take, hcslen, hkk] at this
    omega
  have hklt : kk < m := by
    rcases Nat.lt_or_ge kk m with h | h
    · exact h
    · exfalso
      have hwhole : (pySlice tests s m).takeWhile (fun t => ! t.isTest lastT.name)
          = pySlice tests s m := by
        rw [takeWhile_as_take, hkk, show kk = m by omega]
        exact List.take_of_length_le (by omega)
      have hmem : lastT ∈ (pySlice tests s m).takeWhile (fun t => ! t.isTest lastT.name) := by
        rw [hwhole]
        exact List.mem_of_getLast?_eq_some hlast
      have := List.mem_takeWhile_imp hmem
      simp [Test.isTest] at this
  obtain ⟨stopT, hstopIdx, hstopP⟩ :=
    takeWhile_stop (fun t => ! t.isTest lastT.name) (pySlice tests s m) (by omega)
  rw [hkk, pySlice_getElem?, if_pos hklt] at hstopIdx
  have hstopName : stopT.name = lastT.name := by
    simpa [Test.isTest] using hstopP
  have hnk : nameAt tests (s + kk) = some lastT.name := by
    simp [nameAt, hstopIdx, hstopName]
  have htake : (pySlice tests s m).takeWhile (fun t => ! t.isTest lastT.name)
      = pySlice tests s kk := by
    conv_lhs => rw [takeWhile_as_take, hkk]
    rw [pySlice_take, Nat.min_eq_left hkle]
  have hdw : (pySlice tests s m).dropWhile (fun t => ! t.isTest lastT.name)
      = (pySlice tests s m).drop kk := by
    conv_rhs => rw [← List.takeWhile_append_dropWhile
      (p := fun t => ! t.isTest lastT.name) (l := pySlice tests s m)]
    exact (List.drop_left' hkk).symm
  have hallB : ∀ x ∈ (pySlice tests s m).drop kk,
      x.isTest lastT.name = true := by
    intro x hx
    obtain ⟨i, hi⟩ := List.mem_iff_getElem?.mp hx
    rw [List.getElem?_drop, pySlice_getElem?] at hi
    by_cases hcase : kk + i < m
    · rw [if_pos hcase] at hi
      have hxname : nameAt tests (s + (kk + i)) = some x.name := by
        simp [nameAt, hi]
      have hsame := hg (s + m) hlt (s + kk) (by omega) (by rw [hnk, hn2])
        (s + (kk + i)) (by omega) (by omega)
      rw [hxname, hnk] at hsame
      have hxn : x.name = lastT.name := by
        injection hsame
      simp [Test.isTest, hxn]
    · rw [if_neg hcase] at hi
      cases hi
  have hfilter : (pySlice tests s m).filter (fun t => ! t.isTest lastT.name)
      = pySlice tests s kk := by
    conv_lhs => rw [← List.takeWhile_append_dropWhile
      (p := fun t => ! t.isTest lastT.name) (l := pySlice tests s m)]
    rw [List.filter_append,
      List.filter_eq_self.mpr (fun a ha => by simpa using List.mem_takeWhile_imp ha),
      List.filter_eq_nil_iff.mpr ?_, List.append_nil, htake]
    intro a ha
    rw [hdw] at ha
    simp [hallB a ha]
  have hflen : ((pySlice tests s m).filter (fun t => ! t.isTest lastT.name)).length = kk := by
    rw [hfilter, pySlice_length]
    omega
  refine ⟨kk, hklt, ?_, by rw [hnk, hn2], ?_⟩
  · have hfin : subsetOfTests tests s m
        = some ((pySlice tests s m).filter (fun t => ! t.isTest lastT.name),
            s + ((pySlice tests s m).filter (fun t => ! t.isTest lastT.name)).length) := by
      unfold subsetOfTests
      rw [if_neg (not_or.mpr ⟨by omega, hb⟩)]
      simp only [hlast]
    rw [hfin, hfilter]
    have hlen2 : (pySlice tests s kk).length = kk := by
      rw [pySlice_length]
      omega
    rw [hlen2]
  · intro i hi
    have hii : i < (pySlice tests s m).length := by omega
    have h1 := pySlice_getElem? tests s m i
    rw [if_pos (by omega : i < m)] at h1
    obtain ⟨y, hy⟩ : ∃ y, (pySlice tests s m)[i]? = some y := by
      rw [List.getElem?_eq_getElem hii]
      exact ⟨_, rfl⟩
    have hiIdx : tests[s + i]? = some y := by
      rw [← h1]
      exact hy
    have hmemTW : y ∈ (pySlice tests s m).takeWhile (fun t => ! t.isTest lastT.name) := by
      apply List.mem_iff_getElem?.mpr
      refine ⟨i, ?_⟩
      rw [htake, pySlice_getElem?, if_pos hi]
      exact hiIdx
    have hp := List.mem_takeWhile_imp hmemTW
    have hne : y.name ≠ lastT.name := by
      simpa [Test.isTest] using hp
    rw [hn2]
    simp only [nameAt, hiIdx, Option.map_some']
    intro hcontra
    exact hne (by injection hcontra)

/-- A slice equals its own truncation to its length. -/
theorem pySlice_trunc (l : List Test) (s m : Nat) :
    pySlice l s m = pySlice l s ((pySlice l s m).length) := by
  rw [pySlice_length]
  unfold pySlice
  rcases Nat.le_total m (l.length - s) with h | h
  · rw [Nat.min_eq_left h]
  · rw [Nat.min_eq_right h]
    rw [List.take_of_length_le (by simp only [List.length_drop]; omega),
      List.take_of_length_le (by simp only [List.length_drop]; omega)]

/-- The plain-slice branch of `subsetOfTests`. -/
theorem subsetOfTests_plain (tests : List Test) (s m : Nat)
    (hc : s + m ≥ tests.length ∨ boundaryNameDiffers tests (s + m)) :
    subsetOfTests tests s m
      = some (pySlice tests s m, s + (pySlice tests s m).length) := by
  unfold subsetOfTests
  rw [if_pos hc]

/-- On a grouped list, whenever `subsetOfTests` returns, the batch is the
contiguous slice `tests[s : s+k]` with `nextIndex = s + k`, and the cut
point `s + k` is never interior to a run: either the batch is empty, or
it reaches the end of the list, or the names on the two sides of the cut
differ. -/
theorem subsetOfTests_some_char (tests : List Test) (hg : Grouped tests)
    (s m : Nat) (batch : List Test) (next : Nat)
    (h : subsetOfTests tests s m = some (batch, next)) :
    ∃ k, batch = pySlice tests s k ∧ next = s + k ∧
      (k = 0 ∨ s + k = tests.length
        ∨ nameAt tests (s + k - 1) ≠ nameAt tests (s + k)) := by
  by_cases hc : s + m ≥ tests.length ∨ boundaryNameDiffers tests (s + m)
  · rw [subsetOfTests_plain tests s m hc] at h
    obtain ⟨hb, hn⟩ : batch = pySlice tests s m
        ∧ next = s + (pySlice tests s m).length := by
      have hinj := Option.some.inj h
      exact ⟨congrArg Prod.fst hinj.symm, congrArg Prod.snd hinj.symm⟩
    refine ⟨(pySlice tests s m).length, by rw [hb, ← pySlice_trunc], hn, ?_⟩
    rw [pySlice_length]
    by_cases hsl : tests.length ≤ s
    · left
      omega
    · by_cases hml : s + m ≥ tests.length
      · right; left
        omega
      · by_cases hm0 : m = 0
        · left
          omega
        · right; right
          have hbd : boundaryNameDiffers tests (s + m) := by
            rcases hc with hc | hc
            · omega
            · exact hc
          unfold boundaryNameDiffers at hbd
          rw [if_neg (by omega : ¬ (s + m = 0))] at hbd
          have hmin : s + min m (tests.length - s) = s + m := by
            omega
          rw [hmin]
          exact hbd
  · have hc' := not_or.mp hc
    have hlt : s + m < tests.length := by omega
    have hb : ¬ boundaryNameDiffers tests (s + m) := hc'.2
    by_cases hm0 : m = 0
    · exfalso
      unfold subsetOfTests at h
      rw [if_neg hc] at h
      have hnil : pySlice tests s m = [] := by
        subst hm0
        simp [pySlice]
      simp only [hnil, List.getLast?_nil] at h
      cases h
    · obtain ⟨k, hklt, heq, hkname, hbname⟩ :=
        subsetOfTests_trim_char tests hg s m hlt hb (by omega)
      rw [heq] at h
      obtain ⟨hb2, hn2⟩ : batch = pySlice tests s k ∧ next = s + k := by
        have hinj := Option.some.inj h
        exact ⟨congrArg Prod.fst hinj.symm, congrArg Prod.snd hinj.symm⟩
      refine ⟨k, hb2, hn2, ?_⟩
      by_cases hk0 : k = 0
      · left
        exact hk0
      · right; right
        have hlastb := hbname (k - 1) (by omega)
        intro hcontra
        apply hlastb
        rw [show s + (k - 1) = s + k - 1 by omega, hcontra, hkname]

/-- Claim C3, amended to grouped orderings: on a test list in which
equal-named tests are contiguous, `subsetOfTests` never splits a run of
equal-named tests across the returned batch and the remainder, for every
start index and maximum size.  On arbitrary orderings the claim fails —
see the counterexample. -/
theorem claimC3_theorem (tests : List Test) (hg : Grouped tests) (s m : Nat) :
    ¬ SplitsRun tests s m := by
  rintro ⟨j, hj, i, hij, hseg, batch, next, hsub, ⟨ti, hti, htib⟩, ⟨tj, htj, htjr⟩⟩
  obtain ⟨k, hbatch, hnext, hbdry⟩ := subsetOfTests_some_char tests hg s m batch next hsub
  subst hbatch
  subst hnext
  obtain ⟨a, ha⟩ := List.mem_iff_getElem?.mp htib
  rw [pySlice_getElem?] at ha
  by_cases hak : a < k
  · rw [if_pos hak] at ha
    obtain ⟨b, hb⟩ := List.mem_iff_getElem?.mp htjr
    rw [List.getElem?_drop] at hb
    have hblen : s + k + b < tests.length :=
      (List.getElem?_eq_some_iff.mp hb).1
    have hnameij : nameAt tests j = nameAt tests i := hseg j (Nat.le_refl j) (Nat.le_of_lt hij)
    have hnames : ti.name = tj.name := by
      have hni : nameAt tests i = some ti.name := by simp [nameAt, hti]
      have hnj : nameAt tests j = some tj.name := by simp [nameAt, htj]
      rw [hni, hnj] at hnameij
      injection hnameij with hinj
      exact hinj.symm
    have hpa : nameAt tests (s + a) = some ti.name := by simp [nameAt, ha]
    have hqb : nameAt tests (s + k + b) = some tj.name := by simp [nameAt, hb]
    rcases hbdry with hk0 | hklen | hbd
    · omega
    · omega
    · have hsa : nameAt tests (s + a) = nameAt tests (s + k + b) := by
        rw [hpa, hqb, hnames]
      have hgr := hg (s + k + b) hblen (s + a) (by omega) hsa
      have h1 := hgr (s + k - 1) (by omega) (by omega)
      have h2 := hgr (s + k) (by omega) (by omega)
      exact hbd (h1.trans h2.symm)
  · rw [if_neg hak] at ha
    cases ha

/-- Counterexample to claim C3 as stated ("for every ordering"): on the
ordering `b a a b b` with `startIndex = 0`, `maxsize = 4`, the trimming
branch removes the `b` tests from the middle of the candidate slice and
returns the batch `[a,a]` with `nextIndex = 2` — so position 1 (an `a`)
is in the batch while position 2 (the other `a` of the same contiguous
run) is in the remainder `tests[2:]`, splitting the run across the batch
boundary (it will be dispatched again in the next batch). -/
theorem claimC3_counterexample : SplitsRun straddleTests 0 4 := by
  refine ⟨2, by decide, 1, by decide, by decide,
    [sampleTest "a" "1", sampleTest "a" "2"], 2, by decide,
    ⟨sampleTest "a" "1", by decide, by decide⟩,
    ⟨sampleTest "a" "2", by decide, by decide⟩⟩

/-- Witness for `claimC3_theorem`: the grouped list `a a b` with
`startIndex = 0`, `maxsize = 2`. -/
theorem claimC3_witness : ¬ SplitsRun groupedTests 0 2 :=
  claimC3_theorem groupedTests (by decide) 0 2

/-- On a grouped list with `maxsize` at least the longest run, every call
of `subsetOfTests` below the end of the list returns a non-empty
contiguous slice: the batch advances the cursor. -/
theorem subsetOfTests_progress (tests : List Test) (hg : Grouped tests) (m : Nat)
    (hrb : RunsBounded tests m) (s : Nat) (hs : s < tests.length) :
    ∃ k, 1 ≤ k ∧ s + k ≤ tests.length ∧
      subsetOfTests tests s m = some (pySlice tests s k, s + k) := by
  have hm : 1 ≤ m := by
    have htriv : ∀ k, k ≤ s → s ≤ k → nameAt tests k = nameAt tests s := by
      intro k h1 h2
      rw [show k = s by omega]
    have := hrb s hs s (Nat.le_refl s) htriv
    omega
  by_cases hc : s + m ≥ tests.length ∨ boundaryNameDiffers tests (s + m)
  · refine ⟨(pySlice tests s m).length, ?_, ?_, ?_⟩
    · rw [pySlice_length]
      omega
    · rw [pySlice_length]
      omega
    · rw [subsetOfTests_plain tests s m hc, ← pySlice_trunc]
  · have hc' := not_or.mp hc
    have hlt : s + m < tests.length := by omega
    obtain ⟨k, hklt, heq, hkname, hbname⟩ :=
      subsetOfTests_trim_char tests hg s m hlt hc'.2 hm
    refine ⟨k, ?_, by omega, heq⟩
    by_contra hk0
    have hk0' : k = 0 := by omega
    subst hk0'
    have hallseg : ∀ x, x ≤ s + m → s ≤ x → nameAt tests x = nameAt tests s := by
      intro x h1 h2
      have := hg (s + m) hlt s (by omega) (by simpa using hkname) x h1 h2
      exact this
    have := hrb (s + m) hlt s (by omega) hallseg
    omega

/-- Iterating `subsetOfTests` from any cursor on a grouped, run-bounded
list terminates within `len - s` steps and the batches concatenate to the
tail of the list from the cursor. -/
theorem runBatches_covers (tests : List Test) (hg : Grouped tests) (m : Nat)
    (hrb : RunsBounded tests m) :
    ∀ fuel s, tests.length - s < fuel →
      ∃ bs, runBatches tests m fuel s = some bs ∧ bs.flatten = tests.drop s := by
  intro fuel
  induction fuel with
  | zero =>
    intro s h
    omega
  | succ fuel ih =>
    intro s hfs
    by_cases hs : s < tests.length
    · obtain ⟨k, hk1, hkle, heq⟩ := subsetOfTests_progress tests hg m hrb s hs
      obtain ⟨bs, hbs, hjoin⟩ := ih (s + k) (by omega)
      refine ⟨pySlice tests s k :: bs, ?_, ?_⟩
      · simp only [runBatches, if_pos hs, heq, hbs, Option.map_some']
      · rw [List.flatten_cons, hjoin]
        unfold pySlice
        exact List.drop_take_append_drop tests s k
    · refine ⟨[], ?_, ?_⟩
      · simp only [runBatches, if_neg hs]
      · rw [List.flatten_nil, List.drop_eq_nil_of_le (by omega)]

/-- Claim C2, amended to grouped orderings: on a test list whose
equal-named tests are contiguous and with `maxSize` at least the longest
equal-name run, iterating `subsetOfTests` from index 0 and feeding
`nextIndex` back in terminates (within `len(tests)` applications), the
batches concatenate to exactly the full test list (every test visited
once), and every application with `startIndex < len(tests)` strictly
advances the cursor.  On non-grouped orderings the iteration can skip
and revisit tests — see the counterexample. -/
theorem claimC2_theorem (tests : List Test) (m : Nat)
    (hg : Grouped tests) (hrb : RunsBounded tests m) :
    (∃ bs, runBatches tests m (tests.length + 1) 0 = some bs ∧ bs.flatten = tests)
    ∧ ∀ s, s < tests.length → ∀ batch next,
        subsetOfTests tests s m = some (batch, next) → s < next := by
  constructor
  · obtain ⟨bs, h1, h2⟩ := runBatches_covers tests hg m hrb (tests.length + 1) 0 (by omega)
    exact ⟨bs, h1, by simpa using h2⟩
  · intro s hs batch next heq
    obtain ⟨k, hk1, _, heq'⟩ := subsetOfTests_progress tests hg m hrb s hs
    rw [heq] at heq'
    have hinj := Option.some.inj heq'
    have hnext : next = s + k := congrArg Prod.snd hinj
    omega

/-- Witness for `claimC2_theorem`: the grouped list `a a b` with
`maxSize = 2` (its longest run has length 2). -/
theorem claimC2_witness :
    (∃ bs, runBatches groupedTests 2 (groupedTests.length + 1) 0 = some bs
        ∧ bs.flatten = groupedTests)
    ∧ ∀ s, s < groupedTests.length → ∀ batch next,
        subsetOfTests groupedTests s 2 = some (batch, next) → s < next :=
  claimC2_theorem groupedTests 2 (by decide) (by decide)

/-- Counterexample to claim C2 as stated: on the ordering `b a b b` with
`maxSize = 3` — at least the longest run (2) and even the total
multiplicity of any name (3) — the iteration terminates but its batches
concatenate to `a a b b`: the test at position 0 is never visited and the
test at position 1 is visited twice. -/
theorem claimC2_counterexample :
    RunsBounded scatteredTests 3
    ∧ (runBatches scatteredTests 3 (scatteredTests.length + 1) 0).map List.flatten
        ≠ some scatteredTests := by
  constructor
  · decide
  · decide

/-! ## The dispatch loop: claim C7 -/

/-- Shape of a dispatch generation that ends before the catalog is
exhausted: its call trace is a block of slave dispatches followed by
exactly one hand-off `callMaster(fin)` carrying the final cursor, with
nothing after it.  Stated for any entry iteration count `iter ≤ maxI`;
proved by induction on the remaining iteration budget. -/
theorem dispatchLoop_shape (tests : List Test) (bs maxI : Nat) :
    ∀ gap iter s trace fin, maxI + 1 - iter = gap → iter ≤ maxI →
      dispatchLoop tests bs maxI s iter = some (trace, fin) → fin < tests.length →
      ∃ pre, trace = pre ++ [Call.master fin]
        ∧ ∀ c ∈ pre, ∃ fs, c = Call.slave fs := by
  intro gap
  induction gap with
  | zero =>
    intro iter s trace fin hgap hiter hloop hfin
    omega
  | succ gap ih =>
    intro iter s trace fin hgap hiter hloop hfin
    rw [dispatchLoop.eq_def] at hloop
    by_cases hcond : s < tests.length ∧ iter ≤ maxI
    · rw [dif_pos hcond] at hloop
      by_cases hover : iter + 1 > maxI
      · rw [if_pos hover] at hloop
        have hinner : dispatchLoop tests bs maxI s (iter + 1) = some ([], s) := by
          rw [dispatchLoop.eq_def]
          rw [dif_neg (by omega : ¬ (s < tests.length ∧ iter + 1 ≤ maxI))]
        simp only [hinner] at hloop
        have hinj := Option.some.inj hloop
        have htr : Call.master s :: [] = trace := congrArg Prod.fst hinj
        have hf : s = fin := congrArg Prod.snd hinj
        refine ⟨[], ?_, by simp⟩
        rw [← htr, hf]
        rfl
      · rw [if_neg hover] at hloop
        cases hsub : subsetOfTests tests s bs with
        | none =>
          simp only [hsub] at hloop
          cases hloop
        | some bn =>
          obtain ⟨batch, next⟩ := bn
          simp only [hsub] at hloop
          cases hrec : dispatchLoop tests bs maxI next (iter + 1) with
          | none =>
            simp only [hrec] at hloop
            cases hloop
          | some tf =>
            obtain ⟨rest, fin'⟩ := tf
            simp only [hrec] at hloop
            have hinj := Option.some.inj hloop
            have htr : Call.slave (batch.map (fun t => t.name ++ ".yaml")) :: rest
                = trace := congrArg Prod.fst hinj
            have hf : fin' = fin := congrArg Prod.snd hinj
            obtain ⟨pre, hpre, hslaves⟩ :=
              ih (iter + 1) next rest fin' (by omega) (by omega) hrec (by omega)
            refine ⟨Call.slave (batch.map (fun t => t.name ++ ".yaml")) :: pre, ?_, ?_⟩
            · rw [← htr, hpre, hf]
              rfl
            · intro c hc
              rcases List.mem_cons.mp hc with hc | hc
              · exact ⟨batch.map (fun t => t.name ++ ".yaml"), hc⟩
              · exact hslaves c hc
    · rw [dif_neg hcond] at hloop
      have hinj := Option.some.inj hloop
      have hf : s = fin := congrArg Prod.snd hinj
      have : ¬ s < tests.length := by
        intro hcontra
        exact hcond ⟨hcontra, hiter⟩
      omega

/-- Claim C7: whenever a master generation (entered with `iterations =
0`) ends with its final cursor still inside the catalog — i.e. the
iteration budget ran out mid-catalog — its call trace consists of slave
batch dispatches followed by exactly one hand-off call carrying that
cursor as the resumption `startIndex`, and no further dispatch of any
kind after the hand-off. -/
theorem claimC7_theorem (tests : List Test) (bs maxI s : Nat)
    (trace : List Call) (fin : Nat)
    (hrun : dispatchWork tests bs maxI s = some (trace, fin))
    (hfin : fin < tests.length) :
    ∃ pre, trace = pre ++ [Call.master fin]
      ∧ ∀ c ∈ pre, ∃ fs, c = Call.slave fs :=
  dispatchLoop_shape tests bs maxI (maxI + 1) 0 s trace fin (by omega) (by omega)
    hrun hfin

/-- Witness for `claimC7_theorem`: three tests, `batchSize = 1`,
`maxIterations = 0` — the very first pass exhausts the budget, so the
generation makes exactly the one hand-off call `callMaster(0)` and
nothing else. -/
theorem claimC7_witness :
    ∃ pre, [Call.master 0] = pre ++ [Call.master 0]
      ∧ ∀ c ∈ pre, ∃ fs, c = Call.slave fs := by
  have hrun : dispatchWork groupedTests 1 0 0 = some ([Call.master 0], 0) := by
    unfold dispatchWork
    rw [dispatchLoop.eq_def]
    rw [dif_pos (by decide : (0:Nat) < groupedTests.length ∧ (0:Nat) ≤ (0:Nat))]
    rw [if_pos (by omega : 0 + 1 > 0)]
    rw [dispatchLoop.eq_def]
    rw [dif_neg (by decide : ¬ ((0:Nat) < groupedTests.length ∧ 0 + 1 ≤ 0))]
  exact claimC7_theorem groupedTests 1 0 0 [Call.master 0] 0 hrun (by decide)

end BigEye
